import Mathlib

/-!
Verification of `dataknead`'s `TextLoader` (src/dataknead/textloader.py).

The loader is a line-oriented text adapter:

* `read(f)` returns `f.read().splitlines()` — Python's universal-newline
  splitting of the whole remaining stream content;
* `write(f, data)` executes `f.write(line + "\n")` for each `line` in `data`,
  in order.

We model stream text content as `List Char`.  `splitlines` is embedded
faithfully, including the full set of line-boundary characters Python's
`str.splitlines` recognizes and the coalescing of `"\r\n"` into a single
boundary.  Fallible streams are modelled with `Except`.
-/

namespace TextLoader

/-- The characters Python's `str.splitlines` treats as line boundaries:
`\n`, `\r` (with `\r\n` coalesced), `\v`, `\f`, the separators
`\x1c`, `\x1d`, `\x1e`, and the Unicode boundaries `\x85`, `U+2028`, `U+2029`. -/
def isLineBoundary (c : Char) : Bool :=
  c = '\n' || c = '\r' || c = '\x0b' || c = '\x0c' ||
  c = '\x1c' || c = '\x1d' || c = '\x1e' ||
  c = '\x85' || c = '\u2028' || c = '\u2029'

/-- Worker for `splitlines`: `acc` holds the characters of the current line,
in reverse.  A boundary character flushes the current line; `"\r\n"` counts
as a single boundary; a final unterminated non-empty fragment is emitted. -/
def splitlinesAux : List Char → List Char → List (List Char)
  | [], acc => if acc.isEmpty then [] else [acc.reverse]
  | c :: rest, acc =>
    if isLineBoundary c then
      acc.reverse ::
        match rest with
        | [] => []
        | c' :: rest' =>
          if c = '\r' ∧ c' = '\n' then splitlinesAux rest' []
          else splitlinesAux (c' :: rest') []
    else splitlinesAux rest (c :: acc)

/-- Embedding of Python's `str.splitlines` on the stream content. -/
def splitlines (s : List Char) : List (List Char) := splitlinesAux s []

/-- `TextLoader.read`: `return f.read().splitlines()`, as a function of the
remaining content of the stream. -/
def read (content : List Char) : List (List Char) := splitlines content

/-- `TextLoader.write`: `[f.write(line + "\n") for line in data]`.  The value
is the text the sequence of `f.write` calls appends to the stream. -/
def write (data : List (List Char)) : List Char :=
  data.foldl (fun acc line => acc ++ (line ++ ['\n'])) []

/-- `TextLoader.EXTENSION = "txt"`. -/
def EXTENSION : String := "txt"

/-- A line is clean when it contains no line-boundary character. -/
def cleanLine (l : List Char) : Bool := l.all fun c => !isLineBoundary c

/-- The three line terminators the spec names. -/
def isTerm (t : List Char) : Bool :=
  decide (t = ['\n']) || decide (t = ['\r', '\n']) || decide (t = ['\r'])

/-- Content of a stream holding lines `Li`, each followed by its own
terminator `ti` (possibly empty for the last): `L1 t1 L2 t2 ... Ln tn`. -/
def assemble : List (List Char × List Char) → List Char
  | [] => []
  | (l, t) :: ps => l ++ (t ++ assemble ps)

/-- The decomposition conditions exactly as the claim states them: every
line is free of line-boundary characters, every terminator but the last is
one of `"\n"`, `"\r\n"`, `"\r"`, and the trailing terminator is optional. -/
def specDecomp : List (List Char × List Char) → Bool
  | [] => true
  | [(l, t)] => cleanLine l && (isTerm t || decide (t = []))
  | (l, t) :: ps => cleanLine l && isTerm t && specDecomp ps

/-- The amended decomposition conditions: in addition to `specDecomp`, the
final fragment must be non-empty or terminated, and an `"\r"` terminator
must not be immediately followed by an empty line with an `"\n"` terminator
(the adjacent `'\r'` and `'\n'` would coalesce into one boundary). -/
def goodDecomp : List (List Char × List Char) → Bool
  | [] => true
  | [(l, t)] => cleanLine l && (isTerm t || (decide (t = []) && !decide (l = [])))
  | (l, t) :: (l', t') :: ps =>
    cleanLine l && isTerm t &&
    !(decide (t = ['\r']) && decide (l' = []) && decide (t' = ['\n'])) &&
    goodDecomp ((l', t') :: ps)

/-- `read` on a fallible stream: the single `f.read()` call either yields the
remaining content or fails; `return f.read().splitlines()` installs no
handler, so a stream failure passes through unchanged. -/
def readStream (E : Type) (readAll : Except E (List Char)) :
    Except E (List (List Char)) :=
  match readAll with
  | Except.error e => Except.error e
  | Except.ok s => Except.ok (splitlines s)

/-- `write` on a fallible stream: `f.write(line + "\n")` is called once per
line, in order, threading the stream state `st`; the comprehension installs
no handler, so the first failing call aborts with its error unchanged. -/
def writeStream {E σ : Type} (wr : σ → List Char → Except E σ) :
    σ → List (List Char) → Except E σ
  | st, [] => Except.ok st
  | st, line :: rest =>
    match wr st (line ++ ['\n']) with
    | Except.error e => Except.error e
    | Except.ok st' => writeStream wr st' rest

lemma splitlinesAux_nil (acc : List Char) :
    splitlinesAux [] acc = if acc.isEmpty then [] else [acc.reverse] := rfl

lemma splitlinesAux_nl (xs acc : List Char) :
    splitlinesAux ('\n' :: xs) acc = acc.reverse :: splitlinesAux xs [] := by
  cases xs <;> simp [splitlinesAux, isLineBoundary]

lemma splitlinesAux_crlf (xs acc : List Char) :
    splitlinesAux ('\r' :: '\n' :: xs) acc = acc.reverse :: splitlinesAux xs [] := by
  simp [splitlinesAux, isLineBoundary]

lemma splitlinesAux_cr (xs acc : List Char) (h : xs.head? ≠ some '\n') :
    splitlinesAux ('\r' :: xs) acc = acc.reverse :: splitlinesAux xs [] := by
  cases xs with
  | nil => simp [splitlinesAux, isLineBoundary]
  | cons c' xs' =>
    have hc : c' ≠ '\n' := by simpa using h
    simp [splitlinesAux, isLineBoundary, hc]

lemma splitlinesAux_clean_step (c : Char) (hc : isLineBoundary c = false)
    (xs acc : List Char) :
    splitlinesAux (c :: xs) acc = splitlinesAux xs (c :: acc) := by
  cases xs <;> simp [splitlinesAux, hc]

lemma cleanLine_cons {c : Char} {cs : List Char} (h : cleanLine (c :: cs) = true) :
    isLineBoundary c = false ∧ cleanLine cs = true := by
  simp only [cleanLine, List.all_cons, Bool.and_eq_true, Bool.not_eq_true'] at h
  exact ⟨h.1, h.2⟩

lemma ne_nl_of_not_boundary {c : Char} (h : isLineBoundary c = false) : c ≠ '\n' := by
  intro hc; subst hc; simp [isLineBoundary] at h

lemma splitlinesAux_clean_append (l : List Char) (hl : cleanLine l = true)
    (rest acc : List Char) :
    splitlinesAux (l ++ rest) acc = splitlinesAux rest (l.reverse ++ acc) := by
  induction l generalizing acc with
  | nil => simp
  | cons c cs ih =>
    obtain ⟨hc, hcs⟩ := cleanLine_cons hl
    rw [List.cons_append, splitlinesAux_clean_step c hc, ih hcs]
    simp

lemma splitlinesAux_term (t rest acc : List Char) (ht : isTerm t = true)
    (hcr : t = ['\r'] → rest.head? ≠ some '\n') :
    splitlinesAux (t ++ rest) acc = acc.reverse :: splitlinesAux rest [] := by
  have h3 : (t = ['\n'] ∨ t = ['\r', '\n']) ∨ t = ['\r'] := by
    simpa [isTerm, Bool.or_eq_true, decide_eq_true_eq] using ht
  rw [or_assoc] at h3
  rcases h3 with h | h | h <;> subst h
  · exact splitlinesAux_nl rest acc
  · exact splitlinesAux_crlf rest acc
  · exact splitlinesAux_cr rest acc (hcr rfl)

lemma goodDecomp_head_clean : ∀ {l t ps},
    goodDecomp ((l, t) :: ps) = true → cleanLine l = true := by
  intro l t ps h
  cases ps with
  | nil =>
    simp only [goodDecomp, Bool.and_eq_true] at h
    exact h.1
  | cons hd tl =>
    obtain ⟨a, b⟩ := hd
    simp only [goodDecomp, Bool.and_eq_true] at h
    exact h.1.1.1

lemma goodDecomp_nil_head_term : ∀ {t ps},
    goodDecomp (([], t) :: ps) = true → isTerm t = true := by
  intro t ps h
  cases ps with
  | nil =>
    simp only [goodDecomp, Bool.and_eq_true, Bool.or_eq_true] at h
    rcases h.2 with h2 | h2
    · exact h2
    · simp at h2
  | cons hd tl =>
    obtain ⟨a, b⟩ := hd
    simp only [goodDecomp, Bool.and_eq_true] at h
    exact h.1.1.2

/-- Splitting a well-formed assembled content recovers exactly the lines. -/
lemma splitlines_assemble :
    ∀ ps, goodDecomp ps = true → splitlines (assemble ps) = ps.map Prod.fst := by
  intro ps h
  induction ps with
  | nil => rfl
  | cons hd tl ih =>
    obtain ⟨l, t⟩ := hd
    cases tl with
    | nil =>
      simp only [goodDecomp, Bool.and_eq_true, Bool.or_eq_true] at h
      obtain ⟨hl, hrest⟩ := h
      simp only [assemble, List.map_cons, List.map_nil, splitlines]
      rcases hrest with ht | ht
      · rw [splitlinesAux_clean_append l hl (t ++ []) [],
          splitlinesAux_term t [] (l.reverse ++ []) ht
            (by intro _ hh; simp at hh)]
        simp [splitlinesAux]
      · have ht1 : t = [] := by simpa using ht.1
        have hl1 : ¬ l = [] := by simpa using ht.2
        subst ht1
        rw [splitlinesAux_clean_append l hl ([] ++ []) []]
        simp [splitlinesAux, hl1]
    | cons hd' tl' =>
      obtain ⟨l', t'⟩ := hd'
      simp only [goodDecomp, Bool.and_eq_true] at h
      obtain ⟨⟨⟨hl, ht⟩, hadj⟩, htl⟩ := h
      have ih' := ih htl
      have hcr : t = ['\r'] → (assemble ((l', t') :: tl')).head? ≠ some '\n' := by
        intro htr he
        subst htr
        have hadj' : ¬(l' = [] ∧ t' = ['\n']) := by
          intro ⟨h1, h2⟩
          subst h1; subst h2
          simp at hadj
        cases l' with
        | cons c l'' =>
          have hc := cleanLine_cons (goodDecomp_head_clean htl)
          simp only [assemble, List.cons_append, List.head?_cons,
            Option.some.injEq] at he
          exact ne_nl_of_not_boundary hc.1 he
        | nil =>
          have hterm := goodDecomp_nil_head_term htl
          have ht3 : (t' = ['\n'] ∨ t' = ['\r', '\n']) ∨ t' = ['\r'] := by
            simpa [isTerm, Bool.or_eq_true, decide_eq_true_eq] using hterm
          have hne : t' ≠ ['\n'] := fun hh => hadj' ⟨rfl, hh⟩
          rcases ht3 with (h1 | h1) | h1
          · exact hne h1
          · subst h1; simp [assemble] at he
          · subst h1; simp [assemble] at he
      have hassem : assemble ((l, t) :: (l', t') :: tl') =
          l ++ (t ++ assemble ((l', t') :: tl')) := rfl
      simp only [splitlines, hassem, List.map_cons]
      rw [splitlinesAux_clean_append l hl (t ++ assemble ((l', t') :: tl')) [],
        splitlinesAux_term t (assemble ((l', t') :: tl')) (l.reverse ++ []) ht hcr]
      simp only [List.append_nil, List.reverse_reverse, List.cons.injEq, true_and]
      simpa [splitlines] using ih'

lemma write_acc (data : List (List Char)) : ∀ acc : List Char,
    data.foldl (fun acc line => acc ++ (line ++ ['\n'])) acc =
      acc ++ assemble (data.map fun l => (l, ['\n'])) := by
  induction data with
  | nil => intro acc; simp [assemble]
  | cons d ds ih =>
    intro acc
    simp only [List.foldl_cons, List.map_cons, assemble, ih]
    simp [List.append_assoc]

/-- The sequence of `f.write` calls appends exactly the assembled content in
which every line carries terminator `"\n"`. -/
lemma write_eq_assemble (data : List (List Char)) :
    write data = assemble (data.map fun l => (l, ['\n'])) := by
  simpa [write] using write_acc data []

lemma assemble_join (data : List (List Char)) :
    assemble (data.map fun l => (l, ['\n'])) =
      (data.map fun l => l ++ ['\n']).flatten := by
  induction data with
  | nil => rfl
  | cons d ds ih => simp [assemble, ih, List.flatten]

lemma goodDecomp_map_nl : ∀ S : List (List Char),
    (∀ l ∈ S, cleanLine l = true) →
    goodDecomp (S.map fun l => (l, ['\n'])) = true := by
  intro S h
  induction S with
  | nil => rfl
  | cons a S ih =>
    have ha := h a (by simp)
    cases S with
    | nil =>
      simp only [List.map_cons, List.map_nil, goodDecomp, Bool.and_eq_true]
      refine ⟨ha, ?_⟩
      have h1 : isTerm ['\n'] = true := by decide
      simp [h1]
    | cons b S' =>
      have hr := ih fun l hl => h l (by simp [hl])
      simp only [List.map_cons] at hr ⊢
      simp only [goodDecomp, Bool.and_eq_true]
      refine ⟨⟨⟨ha, by decide⟩, ?_⟩, hr⟩
      have h1 : decide ((['\n'] : List Char) = ['\r']) = false := by decide
      simp [h1]

/-- Every line emitted by the splitting worker is free of boundary
characters, provided the pending accumulator is. -/
lemma splitlinesAux_clean_strong : ∀ (n : Nat) (s acc : List Char),
    s.length ≤ n →
    (∀ c ∈ acc, isLineBoundary c = false) →
    ∀ l ∈ splitlinesAux s acc, ∀ c ∈ l, isLineBoundary c = false := by
  intro n
  induction n with
  | zero =>
    intro s acc hlen hacc l hl c hc
    have hs : s = [] := by
      cases s with
      | nil => rfl
      | cons a b => simp at hlen
    subst hs
    rw [splitlinesAux_nil] at hl
    by_cases ha : acc.isEmpty = true
    · simp [ha] at hl
    · simp [ha] at hl
      subst hl
      exact hacc c (by simpa using hc)
  | succ n ih =>
    intro s acc hlen hacc l hl c hc
    cases s with
    | nil =>
      rw [splitlinesAux_nil] at hl
      by_cases ha : acc.isEmpty = true
      · simp [ha] at hl
      · simp [ha] at hl
        subst hl
        exact hacc c (by simpa using hc)
    | cons d rest =>
      by_cases hb : isLineBoundary d = true
      · cases rest with
        | nil =>
          have hrw : splitlinesAux [d] acc = [acc.reverse] := by
            simp [splitlinesAux, hb]
          rw [hrw] at hl
          simp only [List.mem_singleton] at hl
          subst hl
          exact hacc c (by simpa using hc)
        | cons d' rest' =>
          by_cases hm : d = '\r' ∧ d' = '\n'
          · obtain ⟨hd1, hd2⟩ := hm
            subst hd1; subst hd2
            rw [splitlinesAux_crlf rest' acc] at hl
            rcases List.mem_cons.mp hl with hl1 | hl1
            · subst hl1
              exact hacc c (by simpa using hc)
            · exact ih rest' [] (by simp at hlen; omega) (by simp) l hl1 c hc
          · have hrw : splitlinesAux (d :: d' :: rest') acc =
                acc.reverse :: splitlinesAux (d' :: rest') [] := by
              simp [splitlinesAux, hb, hm]
            rw [hrw] at hl
            rcases List.mem_cons.mp hl with hl1 | hl1
            · subst hl1
              exact hacc c (by simpa using hc)
            · exact ih (d' :: rest') [] (by simp at hlen ⊢; omega) (by simp)
                l hl1 c hc
      · have hb' : isLineBoundary d = false := by simpa using hb
        rw [splitlinesAux_clean_step d hb'] at hl
        refine ih rest (d :: acc) (by simp at hlen; omega) ?_ l hl c hc
        intro x hx
        rcases List.mem_cons.mp hx with hx1 | hx1
        · subst hx1; exact hb'
        · exact hacc x hx1

/-- C1 counterexample: the claim as stated is false.  The single-element
sequence `["a\x0bb"]` contains no newline character, yet the write/read
round trip returns `["a", "b"]`, because the splitting also treats the
vertical tab as a line boundary. -/
theorem roundtrip_cex :
    ('\n' ∉ ['a', '\x0b', 'b']) ∧
    read (write [['a', '\x0b', 'b']]) ≠ [['a', '\x0b', 'b']] := by decide

/-- C1 (amended): for every finite sequence of strings in which no element
contains any character the splitting recognizes as a line boundary, writing
the sequence with `write` and reading the written content back with `read`
yields exactly the original sequence. -/
theorem roundtrip (S : List (List Char)) (h : ∀ l ∈ S, cleanLine l = true) :
    read (write S) = S := by
  have h1 := splitlines_assemble (S.map fun l => (l, ['\n']))
    (goodDecomp_map_nl S h)
  rw [write_eq_assemble]
  show splitlines (assemble (S.map fun l => (l, ['\n']))) = S
  rw [h1]
  simp [List.map_map, Function.comp_def]

/-- C1 witness: the round trip at the concrete sequence `["x", "y"]`. -/
theorem roundtrip_witness : read (write [['x'], ['y']]) = [['x'], ['y']] :=
  roundtrip [['x'], ['y']] (by decide)

/-- C2 counterexample: the claim as stated is false.  First, content
`"a\r\nb"` decomposes as lines `["a", "", "b"]` with terminators
`["\r", "\n", ""]` — all conditions of the claim hold — yet `read` returns
`["a", "b"]`, because the adjacent `'\r'` and `'\n'` coalesce into one
boundary.  Second, the empty content decomposes as the single unterminated
empty line `[""]`, yet `read` returns `[]`. -/
theorem read_decomp_cex :
    (specDecomp [(['a'], ['\r']), ([], ['\n']), (['b'], [])] = true ∧
      read (assemble [(['a'], ['\r']), ([], ['\n']), (['b'], [])]) ≠
        [['a'], [], ['b']]) ∧
    (specDecomp [([], [])] = true ∧
      read (assemble [([], [])]) ≠ [[]]) := by decide

/-- C2 (amended): for a stream whose content is lines `L1, ..., Ln`, each
followed by its terminator (any mix of `"\n"`, `"\r\n"`, `"\r"`; the last
optionally unterminated), `read` returns exactly `[L1, ..., Ln]`, provided
additionally that the final fragment is non-empty or terminated and that no
`"\r"` terminator is immediately followed by an empty line with an `"\n"`
terminator. -/
theorem read_decomp (ps : List (List Char × List Char))
    (h : goodDecomp ps = true) :
    read (assemble ps) = ps.map Prod.fst :=
  splitlines_assemble ps h

/-- C2 witness: reading the spec's example content `"a\nb\r\nc"` yields
`["a", "b", "c"]`. -/
theorem read_decomp_witness :
    read (assemble [(['a'], ['\n']), (['b'], ['\r', '\n']), (['c'], [])]) =
      [['a'], ['b'], ['c']] := by
  have h := read_decomp
    [(['a'], ['\n']), (['b'], ['\r', '\n']), (['c'], [])] (by decide)
  simpa using h

/-- C3: `write` emits each element in order followed by exactly one `'\n'`,
so the total text written is the concatenation `L1\nL2\n...\nLn\n`; in
particular `write ["x", "y"]` writes exactly `"x\ny\n"`. -/
theorem write_text :
    (∀ data : List (List Char),
      write data = (data.map fun l => l ++ ['\n']).flatten) ∧
    write [['x'], ['y']] = ['x', '\n', 'y', '\n'] :=
  ⟨fun data => by rw [write_eq_assemble, assemble_join], by decide⟩

/-- C4: an element with an embedded `'\n'` is written verbatim plus the
appended terminator — `write ["a\nb"]` writes exactly `"a\nb\n"` — and
reading that content back splits at the embedded newline, so the round trip
is not length-preserving for such inputs. -/
theorem write_read_embedded_nl :
    write [['a', '\n', 'b']] = ['a', '\n', 'b', '\n'] ∧
    read ['a', '\n', 'b', '\n'] = [['a'], ['b']] ∧
    (read (write [['a', '\n', 'b']])).length ≠ [['a', '\n', 'b']].length := by
  decide

/-- C5: `read` applied to an empty stream returns the empty sequence. -/
theorem read_empty : read [] = [] := rfl

/-- C6: `write` applied to the empty sequence writes nothing: the text
appended to the stream is empty, zero characters long. -/
theorem write_nothing : write [] = [] ∧ (write []).length = 0 := ⟨rfl, rfl⟩

/-- C7: failures of the underlying stream propagate unchanged: a failing
`f.read()` is the result of `read`; a successful stream makes `read` succeed
with the split lines; and any failure of `write` is literally the error some
`f.write(line + "\n")` call returned — the adapter raises nothing of its
own and translates nothing. -/
theorem stream_error_propagation :
    (∀ (E : Type) (e : E), readStream E (Except.error e) = Except.error e) ∧
    (∀ (E : Type) (s : List Char),
      readStream E (Except.ok s) = Except.ok (read s)) ∧
    (∀ (E σ : Type) (wr : σ → List Char → Except E σ) (st : σ)
      (data : List (List Char)) (e : E),
      writeStream wr st data = Except.error e →
      ∃ st' line, line ∈ data ∧ wr st' (line ++ ['\n']) = Except.error e) := by
  refine ⟨fun E e => rfl, fun E s => rfl, ?_⟩
  intro E σ wr st data e h
  induction data generalizing st with
  | nil => simp [writeStream] at h
  | cons d ds ih =>
    cases hw : wr st (d ++ ['\n']) with
    | error e' =>
      simp only [writeStream, hw, Except.error.injEq] at h
      subst h
      exact ⟨st, d, List.mem_cons_self d ds, hw⟩
    | ok st' =>
      simp only [writeStream, hw] at h
      obtain ⟨st'', line, hmem, hwr⟩ := ih st' h
      exact ⟨st'', line, List.mem_cons_of_mem d hmem, hwr⟩

/-- C7 witness: a stream whose write always fails with error `7` makes the
write loop fail with exactly that error, produced by a stream call. -/
theorem stream_error_propagation_witness :
    ∃ st' line, line ∈ [['a']] ∧
      (fun (_ : Unit) (_ : List Char) => (Except.error 7 : Except Nat Unit))
        st' (line ++ ['\n']) = Except.error 7 :=
  stream_error_propagation.2.2 Nat Unit
    (fun _ _ => Except.error 7) () [['a']] 7 rfl

/-- C8: the adapter's format extension identifier equals `"txt"`. -/
theorem extension_txt : EXTENSION = "txt" := rfl

/-- C9: every element of the sequence returned by `read` is free of every
character the splitting recognizes as a line boundary. -/
theorem read_lines_clean (s l : List Char) (h : l ∈ read s) :
    cleanLine l = true := by
  have hall := splitlinesAux_clean_strong s.length s [] (Nat.le_refl _)
    (by simp) l h
  unfold cleanLine
  rw [List.all_eq_true]
  intro c hc
  simpa using hall c hc

/-- C9 witness: the first line of `read "a\nb"` is clean. -/
theorem read_lines_clean_witness : cleanLine ['a'] = true :=
  read_lines_clean ['a', '\n', 'b'] ['a'] (by decide)

/-- C10: `read` splits on boundaries beyond `\n`, `\r\n`, `\r`: contents
containing only a vertical tab, form feed, `\x85` or `U+2028` between two
letters — and no `'\n'` or `'\r'` at all — still come back as two lines. -/
theorem read_extra_boundaries :
    read ['a', '\x0b', 'b'] = [['a'], ['b']] ∧
    read ['a', '\x0c', 'b'] = [['a'], ['b']] ∧
    read ['a', '\x85', 'b'] = [['a'], ['b']] ∧
    read ['a', '\u2028', 'b'] = [['a'], ['b']] ∧
    '\n' ∉ ['a', '\x0b', 'b'] ∧ '\r' ∉ ['a', '\x0b', 'b'] ∧
    '\n' ∉ ['a', '\x0c', 'b'] ∧ '\r' ∉ ['a', '\x0c', 'b'] ∧
    '\n' ∉ ['a', '\x85', 'b'] ∧ '\r' ∉ ['a', '\x85', 'b'] ∧
    '\n' ∉ ['a', '\u2028', 'b'] ∧ '\r' ∉ ['a', '\u2028', 'b'] := by decide

end TextLoader
